import Mathlib

/-!
Verification of the finite-region reconstruction, clipping and assignment
pipeline of `src/preprocessing/voronoi.py`.

Modelling conventions for the shallow embedding:
* Python floats are modelled as exact rationals (`ℚ`).  `np.linalg.norm`
  computes a square root, which is irrational in general, so every function
  that normalizes a vector takes the square-root function `sq : ℚ → ℚ` as an
  explicit parameter; theorems hold for every choice of `sq`, and concrete
  witnesses instantiate `sq` with `qSqrt`, which is exact on perfect squares.
* Python list indexing (including negative indices counting from the end,
  and `IndexError` on out-of-range access) is modelled by `pyGet`, returning
  `Except Err`.  Fallible computations are threaded through the `Except`
  monad, mirroring Python exceptions.
* `scipy.spatial.Voronoi` is an external collaborator; its output object is
  the input record `VorDiagram`.  Points are pairs (`Pt`), so the source's
  2-dimensionality check (`vor.points.shape[1] != 2`) is vacuous here.
* `shapely` polygon operations (`Polygon.contains`, `intersection` with the
  bounding rectangle followed by `exterior.coords`) are external
  collaborators, modelled as the opaque-function record `GeomOps`.
* Python strings are modelled as `List Char`; `",".join(...)` is
  `joinComma`, and the artifact reader's `row['X'].split(",")`
  (`src/app/figures_generator.py`) is `splitComma`.
* `np.argsort` on the array of `arctan2` angles (and `DataFrame.sort_index`)
  is modelled by a stable insertion sort under `angLE`, the exact order of
  `arctan2` values (branch on the angle's octant, compare by the cross
  product inside an open quadrant).
-/

namespace SLMVoronoi

/-- A 2D point with exact rational coordinates (a row of an `(n, 2)` NumPy
array in the source). -/
structure Pt where
  x : ℚ
  y : ℚ
deriving DecidableEq

def Pt.add (a b : Pt) : Pt := ⟨a.x + b.x, a.y + b.y⟩

def Pt.sub (a b : Pt) : Pt := ⟨a.x - b.x, a.y - b.y⟩

def Pt.smul (c : ℚ) (a : Pt) : Pt := ⟨c * a.x, c * a.y⟩

def Pt.dot (a b : Pt) : ℚ := a.x * b.x + a.y * b.y

/-- Errors a run can raise: Python `IndexError` (list index out of range)
and `KeyError` (dict lookup `all_ridges[p1]` on a missing key). -/
inductive Err where
  | indexErr
  | keyErr
deriving DecidableEq

/-- The effective index of Python `l[i]` on a list of length `n`: a
negative index counts from the end. -/
def pyIdx (n : ℕ) (i : ℤ) : ℤ := if i < 0 then i + n else i

/-- Python list indexing: a negative index counts from the end; an index
out of range (on either side) raises `IndexError`. -/
def pyGet (l : List α) (i : ℤ) : Except Err α :=
  if 0 ≤ pyIdx l.length i then
    match l[(pyIdx l.length i).toNat]? with
    | some a => Except.ok a
    | none => Except.error Err.indexErr
  else Except.error Err.indexErr

/-- `np.sign` on an exact rational. -/
def npSign (q : ℚ) : ℚ := if q < 0 then -1 else if q = 0 then 0 else 1

/-- A concrete square-root function used to instantiate the `sq` parameter
in witnesses: exact whenever numerator and denominator are perfect squares
(all concrete inputs below are chosen that way). -/
def qSqrt (q : ℚ) : ℚ := (Nat.sqrt q.num.toNat : ℚ) / (Nat.sqrt q.den : ℚ)

/-- `np.linalg.norm(p)` for a 2-vector: the square root of `p·p`, for the
given square-root function. -/
def pnorm (sq : ℚ → ℚ) (p : Pt) : ℚ := sq (Pt.dot p p)

/-- The output object of `scipy.spatial.Voronoi` (external collaborator):
sites, finite Voronoi vertices, the two site indices and the two vertex
indices of each ridge (−1 marking a vertex at infinity), the region index
of each site, and the vertex-index list of each region. -/
structure VorDiagram where
  points : List Pt
  vertices : List Pt
  ridge_points : List (ℤ × ℤ)
  ridge_vertices : List (ℤ × ℤ)
  point_region : List ℤ
  regions : List (List ℤ)
deriving DecidableEq

/-- The list the `all_ridges` dict maps site `p` to: for each ridge, in
ridge order, an entry `(other site, v1, v2)` for each side of the ridge
whose site is `p` (the `p1` side first, as `setdefault(p1, ...)` runs
before `setdefault(p2, ...)`). -/
def ridgesOf (vor : VorDiagram) (p : ℤ) : List (ℤ × ℤ × ℤ) :=
  ((vor.ridge_points.zip vor.ridge_vertices).map fun pr =>
    (if pr.1.1 = p then [(pr.1.2, pr.2.1, pr.2.2)] else []) ++
    (if pr.1.2 = p then [(pr.1.1, pr.2.1, pr.2.2)] else [])).flatten

def listSum (l : List ℚ) : ℚ := l.foldr (· + ·) 0

/-- `arr.mean(axis=0)` for a list of 2D rows (division by zero yields 0 in
`ℚ`; NumPy would produce NaN on an empty array). -/
def centerOf (pts : List Pt) : Pt :=
  ⟨listSum (pts.map Pt.x) / pts.length, listSum (pts.map Pt.y) / pts.length⟩

def listMax : List ℚ → ℚ
  | [] => 0
  | a :: t => t.foldl max a

def listMin : List ℚ → ℚ
  | [] => 0
  | a :: t => t.foldl min a

/-- The coordinates of an `(n, 2)` array flattened row-major, as
`ndarray.ptp()` with no axis sees them. -/
def flatCoords (pts : List Pt) : List ℚ :=
  (pts.map (fun p => [p.x, p.y])).flatten

/-- `vor.points.ptp()`: max minus min over the flattened coordinate
array. -/
def ptpFlat (pts : List Pt) : ℚ := listMax (flatCoords pts) - listMin (flatCoords pts)

/-- The default radius when the caller passes `radius=None`:
`vor.points.ptp().max() * 2` (`.max()` of the scalar `ptp()` is the scalar
itself). -/
def defaultRadius (pts : List Pt) : ℚ := ptpFlat pts * 2

/-- Octant rank of the exact value `arctan2(p.y, p.x)` on `(−π, π]`:
ranks 0–7 are `(−π,−π/2)`, `−π/2`, `(−π/2,0)`, `0` (NumPy has
`arctan2(0, 0) = 0`, so the origin ranks with the positive x-axis),
`(0,π/2)`, `π/2`, `(π/2,π)`, `π`. -/
def atanRank (p : Pt) : ℕ :=
  if p.x < 0 ∧ p.y < 0 then 0
  else if p.x = 0 ∧ p.y < 0 then 1
  else if 0 < p.x ∧ p.y < 0 then 2
  else if p.y = 0 ∧ 0 ≤ p.x then 3
  else if 0 < p.x ∧ 0 < p.y then 4
  else if p.x = 0 ∧ 0 < p.y then 5
  else if p.x < 0 ∧ 0 < p.y then 6
  else 7

def cross (a b : Pt) : ℚ := a.x * b.y - a.y * b.x

/-- Exact comparison `arctan2(a.y, a.x) ≤ arctan2(b.y, b.x)`: compare
octant ranks first; inside one octant two vectors are within a quarter
turn of each other, where the sign of the cross product decides. -/
def angLE (a b : Pt) : Bool :=
  decide (atanRank a < atanRank b) ||
    (decide (atanRank a = atanRank b) && decide (0 ≤ cross a b))

/-- The body of the ridge loop (`for p2, v1, v2 in ridges`) of
`voronoi_finite_polygons_2d`, acting on the state
`(new_region, new_vertices)`: swap so that `v2` is finite, skip fully
finite ridges, otherwise synthesize the far point
`vor.vertices[v2] + sign((midpoint − center)·n) * n * radius` and append
its index and value. -/
def ridgeStep (sq : ℚ → ℚ) (vor : VorDiagram) (center : Pt) (radius : ℚ) (p1 : ℤ)
    (st : List ℤ × List Pt) (r : ℤ × ℤ × ℤ) : Except Err (List ℤ × List Pt) := do
  let p2 := r.1
  let v1 := if r.2.2 < 0 then r.2.2 else r.2.1
  let v2 := if r.2.2 < 0 then r.2.1 else r.2.2
  if 0 ≤ v1 then
    return st
  else
    let q1 ← pyGet vor.points p1
    let q2 ← pyGet vor.points p2
    let t0 := Pt.sub q2 q1
    let t := Pt.smul (1 / pnorm sq t0) t0
    let n : Pt := ⟨-t.y, t.x⟩
    let midpoint := Pt.smul (1 / 2) (Pt.add q1 q2)
    let direction := Pt.smul (npSign (Pt.dot (Pt.sub midpoint center) n)) n
    let base ← pyGet vor.vertices v2
    let far := Pt.add base (Pt.smul radius direction)
    return (st.1 ++ [(st.2.length : ℤ)], st.2 ++ [far])

/-- The body of the site loop (`for p1, region in enumerate(vor.point_region)`),
acting on the state `(new_regions, new_vertices)`: copy an already finite
region unchanged; otherwise drop the −1 entries, synthesize a far point per
infinite ridge, and sort the region's vertex indices by ascending `arctan2`
angle about the centroid of the region's vertices. -/
def processSite (sq : ℚ → ℚ) (vor : VorDiagram) (center : Pt) (radius : ℚ)
    (st : List (List ℤ) × List Pt) (pr : ℕ × ℤ) : Except Err (List (List ℤ) × List Pt) := do
  let p1 : ℤ := Int.ofNat pr.1
  let vertices ← pyGet vor.regions pr.2
  if vertices.all (fun v => decide (0 ≤ v)) then
    return (st.1 ++ [vertices], st.2)
  else
    let ridges := ridgesOf vor p1
    if ridges.isEmpty then
      Except.error Err.keyErr
    else
      let init : List ℤ × List Pt := (vertices.filter (fun v => decide (0 ≤ v)), st.2)
      let res ← List.foldlM (ridgeStep sq vor center radius p1) init ridges
      let pts ← List.mapM (pyGet res.2) res.1
      let c := centerOf pts
      let paired := res.1.zip pts
      let sortedPairs := List.insertionSort
        (fun a b => angLE (Pt.sub a.2 c) (Pt.sub b.2 c) = true) paired
      return (st.1 ++ [sortedPairs.map Prod.fst], res.2)

/-- `voronoi_finite_polygons_2d(vor, radius)`: reconstruct the infinite
regions of a 2D diagram, returning the new region index lists and the
extended vertex table. -/
def voronoi_finite_polygons_2d (sq : ℚ → ℚ) (vor : VorDiagram) (radiusArg : Option ℚ) :
    Except Err (List (List ℤ) × List Pt) :=
  let center := centerOf vor.points
  let radius := match radiusArg with
    | some r => r
    | none => defaultRadius vor.points
  List.foldlM (processSite sq vor center radius) ([], vor.vertices) vor.point_region.enum

/-- The `shapely` operations `save_2d_area` delegates to (external
collaborator): `Polygon(v).contains(Point(s))`, and
`Polygon(v).intersection(bounding_box).exterior.coords` — the closed
coordinate loop of the clip of the region polygon against the bounding
rectangle. -/
structure GeomOps where
  contains : List Pt → Pt → Bool
  clipLoop : List Pt → List Pt

/-- `np.argmax` on a boolean array: the index of the first occurrence of
the maximum, i.e. the first `True` if any, else index 0 (the maximum of an
all-`False` array is `False`, whose first occurrence is index 0; NumPy
raises on an empty array, modelled as 0). -/
def npArgmax (l : List Bool) : ℕ :=
  match l.findIdx? (fun b => b) with
  | some i => i
  | none => 0

/-- `",".join(strs)` on Python strings modelled as `List Char`: the parts
in order with one comma between consecutive parts. -/
def joinComma : List (List Char) → List Char
  | [] => []
  | [p] => p
  | p :: q :: rest => p ++ ',' :: joinComma (q :: rest)

/-- Python `s.split(",")` — the parsing direction of the serialization
round trip, embedded from the repository's own reader of the persisted
artifact, `src/app/figures_generator.py` (`get_phonemes_figure`):
`x = [float(x) for x in row['X'].split(",")]` and likewise for `'Y'`.
Matches Python semantics including `"".split(",") == [""]`; the
per-part `float(...)` conversion is the `parseNum` parameter of the
round-trip theorem. -/
def splitComma : List Char → List (List Char)
  | [] => [[]]
  | c :: rest =>
    if c = ',' then [] :: splitComma rest
    else
      match splitComma rest with
      | [] => [[c]]
      | w :: ws => (c :: w) :: ws

/-- `res.loc[unit] = value` on a DataFrame: overwrite the row in place if
the key exists, else append a new row. -/
def upsert (res : List (ℕ × List Char × List Char)) (k : ℕ) (v : List Char × List Char) :
    List (ℕ × List Char × List Char) :=
  if res.any (fun row => decide (row.1 = k)) then
    res.map (fun row => if row.1 = k then (k, v) else row)
  else res ++ [(k, v)]

/-- The region loop of `save_2d_area` plus the final `sort_index()`: for
each region, look up its vertex coordinates, clip against the bounding
rectangle (external `shapely` call `ops.clipLoop`), run the point-in-polygon
test of every site against the **pre-clip** polygon, assign the region to
`np.argmax` of those booleans, and store the comma-joined X and Y
coordinate strings of the clipped loop under that unit index.  `numStr`
models Python `str()` on a float.  Returns the rows of the persisted
table, sorted by unit index. -/
def saveRows (ops : GeomOps) (numStr : ℚ → List Char) (sites : List Pt)
    (regions : List (List ℤ)) (vertices : List Pt) :
    Except Err (List (ℕ × List Char × List Char)) := do
  let rows ← List.foldlM (fun res r => do
    let v ← List.mapM (pyGet vertices) r
    let clip := ops.clipLoop v
    let xs := clip.map Pt.x
    let ys := clip.map Pt.y
    let unit := npArgmax (sites.map (fun s => ops.contains v s))
    let xStr := joinComma (xs.map numStr)
    let yStr := joinComma (ys.map numStr)
    return upsert res unit (xStr, yStr)) [] regions
  return List.insertionSort (fun a b => a.1 ≤ b.1) rows

/-- `save_2d_area` with the file I/O and the external `scipy.spatial.Voronoi`
call stripped: the diagram (whose `points` are the filtered centers) comes
in as input, the reconstructor runs with `radius=None`, and the persisted
table's rows come out. -/
def save_2d_area (sq : ℚ → ℚ) (ops : GeomOps) (numStr : ℚ → List Char)
    (vor : VorDiagram) : Except Err (List (ℕ × List Char × List Char)) := do
  let rv ← voronoi_finite_polygons_2d sq vor none
  saveRows ops numStr vor.points rv.1 rv.2

/-- The synthesized far point as the spec describes it: "compute the
tangent as the normalized vector between the two sites sharing the ridge;
compute the normal as the tangent rotated 90°; compute the ridge midpoint
as the mean of the two adjacent sites; compute a sign as the sign of the
dot product of (midpoint − Center) with the normal; the synthesized far
point equals the ridge's known finite endpoint plus
`sign × normal × Radius`". -/
def specFarPoint (sq : ℚ → ℚ) (center : Pt) (radius : ℚ) (site1 site2 finiteEnd : Pt) : Pt :=
  let tangent := Pt.smul (1 / pnorm sq (Pt.sub site2 site1)) (Pt.sub site2 site1)
  let normal : Pt := ⟨-tangent.y, tangent.x⟩
  let midpoint := Pt.smul (1 / 2) (Pt.add site1 site2)
  let sign := npSign (Pt.dot (Pt.sub midpoint center) normal)
  Pt.add finiteEnd (Pt.smul sign (Pt.smul radius normal))

/-- Squared Euclidean distance — the spec's "pairwise span (distance)
between two sites", kept squared so that it stays rational. -/
def distSq (p q : Pt) : ℚ := Pt.dot (Pt.sub p q) (Pt.sub p q)

/-- External geometry where no point-in-polygon test ever succeeds and
clipping is the identity — the `UnassignedRegion` scenario. -/
def noContainOps : GeomOps where
  contains := fun _ _ => false
  clipLoop := fun v => v

/-- External geometry whose point-in-polygon test is vertex membership and
whose clipping is the identity — enough to exercise the assignment
bookkeeping on tiny concrete inputs. -/
def memContainOps : GeomOps where
  contains := fun poly s => decide (s ∈ poly)
  clipLoop := fun v => v

/-- A stand-in for Python `str()` on concrete inputs where the digits do
not matter. -/
def constA : ℚ → List Char := fun _ => ['a']

/-- A one-site diagram whose single region is already finite. -/
def cex1Diagram : VorDiagram where
  points := [⟨0, 0⟩]
  vertices := [⟨0, 0⟩]
  ridge_points := []
  ridge_vertices := []
  point_region := [0]
  regions := [[0]]

/-- A degenerate diagram whose single ridge has both vertex endpoints
unbounded (`ridge_vertices = [(-1, -1)]`). -/
def cex2Diagram : VorDiagram where
  points := [⟨0, 0⟩, ⟨1, 0⟩]
  vertices := [⟨5, 7⟩]
  ridge_points := [(0, 1)]
  ridge_vertices := [(-1, -1)]
  point_region := [0, 1]
  regions := [[-1, 0], [0, -1]]

/-- A diagram whose single region is already finite but lists its square's
corners clockwise, i.e. not in ascending-angle order about their
centroid. -/
def cex7Diagram : VorDiagram where
  points := [⟨1/2, 1/2⟩]
  vertices := [⟨0, 0⟩, ⟨0, 1⟩, ⟨1, 1⟩, ⟨1, 0⟩]
  ridge_points := []
  ridge_vertices := []
  point_region := [0]
  regions := [[0, 1, 2, 3]]

/-- A two-site diagram with two finite one-vertex regions, used to collide
both regions onto unit 0 when no containment test succeeds. -/
def cex8Diagram : VorDiagram where
  points := [⟨0, 0⟩, ⟨2, 0⟩]
  vertices := [⟨1, 0⟩, ⟨1, 1⟩]
  ridge_points := []
  ridge_vertices := []
  point_region := [0, 1]
  regions := [[0], [1]]

/-- A diagram with one infinite ridge `(v1, v2) = (-1, 0)` between its two
sites, for exercising the far-point synthesis. -/
def w4Diagram : VorDiagram where
  points := [⟨0, 0⟩, ⟨2, 0⟩]
  vertices := [⟨1, 1⟩]
  ridge_points := [(0, 1)]
  ridge_vertices := [(-1, 0)]
  point_region := [0, 1]
  regions := [[-1, 0], [0, -1]]

/-! ### Basic lemmas about the `Except` monad, `pyGet` and list folds -/

deriving instance DecidableEq for Except

theorem exceptPure_ok {α : Type} {a b : α} :
    (pure a : Except Err α) = Except.ok b ↔ a = b := by
  constructor
  · intro h; cases h; rfl
  · intro h; rw [h]; rfl

theorem exceptBind_ok {α β : Type} {x : Except Err α} {f : α → Except Err β} {b : β} :
    (x >>= f) = Except.ok b ↔ ∃ a, x = Except.ok a ∧ f a = Except.ok b := by
  cases x <;> simp [Bind.bind, Except.bind]

theorem pyGet_ok_mem {l : List α} {i : ℤ} {a : α} (h : pyGet l i = Except.ok a) : a ∈ l := by
  unfold pyGet at h
  split at h
  · split at h
    · next ha =>
      cases h
      obtain ⟨hl, rfl⟩ := List.getElem?_eq_some.mp ha
      exact List.getElem_mem hl
    · cases h
  · cases h

theorem pyGet_nonneg_ok {l : List α} {i : ℤ} {a : α} (hi : 0 ≤ i)
    (h : pyGet l i = Except.ok a) :
    i.toNat < l.length ∧ l[i.toNat]? = some a := by
  unfold pyGet at h
  rw [pyIdx, if_neg (not_lt.mpr hi)] at h
  rw [if_pos hi] at h
  split at h
  · next ha =>
    cases h
    exact ⟨(List.getElem?_eq_some.mp ha).1, ha⟩
  · cases h

theorem pyGet_of_lt {l : List α} {i : ℤ} (hi : 0 ≤ i) (hlt : i.toNat < l.length) :
    pyGet l i = Except.ok (l.get ⟨i.toNat, hlt⟩) := by
  unfold pyGet
  rw [pyIdx, if_neg (not_lt.mpr hi), if_pos hi, List.getElem?_eq_getElem hlt]
  rfl

/-- Appending to a list does not change lookups at nonnegative in-range
indices (negative Python indices count from the end and would move). -/
theorem pyGet_append {l e : List α} {i : ℤ} {a : α} (hi : 0 ≤ i)
    (h : pyGet l i = Except.ok a) : pyGet (l ++ e) i = Except.ok a := by
  obtain ⟨hlt, ha⟩ := pyGet_nonneg_ok hi h
  have hlt' : i.toNat < (l ++ e).length := by simp; omega
  rw [pyGet_of_lt hi hlt']
  have : (l ++ e)[i.toNat] = l[i.toNat] := List.getElem_append_left hlt
  simp only [List.get_eq_getElem, this]
  rw [List.getElem?_eq_getElem hlt] at ha
  cases ha
  rfl

theorem pyGet_neg_one {l : List α} (h : l ≠ []) :
    pyGet l (-1) = Except.ok (l.getLast h) := by
  have hl : 0 < l.length := List.length_pos.mpr h
  unfold pyGet
  have hpi : pyIdx l.length (-1) = (l.length : ℤ) - 1 := by
    rw [pyIdx, if_pos (by norm_num)]; omega
  rw [hpi, if_pos (by omega)]
  have ht : ((l.length : ℤ) - 1).toNat = l.length - 1 := by omega
  rw [ht]
  have hlt : l.length - 1 < l.length := by omega
  rw [List.getElem?_eq_getElem hlt, List.getLast_eq_getElem]

/-- A step-invariant survives an `Except`-valued `foldlM`. -/
theorem foldlM_invariant {σ α : Type} {f : σ → α → Except Err σ} {P : σ → Prop}
    (hstep : ∀ s a s', f s a = Except.ok s' → P s → P s') :
    ∀ (l : List α) (s s' : σ), List.foldlM f s l = Except.ok s' → P s → P s' := by
  intro l
  induction l with
  | nil => intro s s' h hP; rw [List.foldlM_nil] at h; cases h; exact hP
  | cons a t ih =>
    intro s s' h hP
    rw [List.foldlM_cons] at h
    obtain ⟨s1, h1, h2⟩ := exceptBind_ok.mp h
    exact ih s1 s' h2 (hstep s a s1 h1 hP)

/-- A reflexive-transitive step relation survives an `Except`-valued
`foldlM`. -/
theorem foldlM_rel {σ α : Type} {f : σ → α → Except Err σ} {R : σ → σ → Prop}
    (hrefl : ∀ s, R s s) (htrans : ∀ s t u, R s t → R t u → R s u)
    (hstep : ∀ s a s', f s a = Except.ok s' → R s s') :
    ∀ (l : List α) (s s' : σ), List.foldlM f s l = Except.ok s' → R s s' := by
  intro l
  induction l with
  | nil => intro s s' h; rw [List.foldlM_nil] at h; cases h; exact hrefl s
  | cons a t ih =>
    intro s s' h
    rw [List.foldlM_cons] at h
    obtain ⟨s1, h1, h2⟩ := exceptBind_ok.mp h
    exact htrans s s1 s' (hstep s a s1 h1) (ih s1 s' h2)

/-! ### Characterization of the reconstruction loop bodies -/

/-- A successful ridge step either skips (finite ridge) or appends exactly
one index/vertex pair, the index being the vertex table's length at append
time. -/
theorem ridgeStep_ok_cases {sq : ℚ → ℚ} {vor : VorDiagram} {center : Pt} {radius : ℚ}
    {p1 : ℤ} {st : List ℤ × List Pt} {r : ℤ × ℤ × ℤ} {st' : List ℤ × List Pt}
    (h : ridgeStep sq vor center radius p1 st r = Except.ok st') :
    st' = st ∨ ∃ far, st' = (st.1 ++ [(st.2.length : ℤ)], st.2 ++ [far]) := by
  simp only [ridgeStep] at h
  split at h <;> split at h <;>
    first
      | (left; exact (exceptPure_ok.mp h).symm)
      | (obtain ⟨q1, hq1, h⟩ := exceptBind_ok.mp h
         obtain ⟨q2, hq2, h⟩ := exceptBind_ok.mp h
         obtain ⟨base, hbase, h⟩ := exceptBind_ok.mp h
         right
         exact ⟨_, (exceptPure_ok.mp h).symm⟩)

/-- Over a whole ridge loop, the vertex table only ever grows by
appending. -/
theorem ridgeFold_mono {sq : ℚ → ℚ} {vor : VorDiagram} {center : Pt} {radius : ℚ}
    {p1 : ℤ} {ridges : List (ℤ × ℤ × ℤ)} {st st' : List ℤ × List Pt}
    (h : List.foldlM (ridgeStep sq vor center radius p1) st ridges = Except.ok st') :
    ∃ ext, st'.2 = st.2 ++ ext := by
  refine foldlM_rel (R := fun s s' => ∃ e, s'.2 = s.2 ++ e) (fun s => ⟨[], by simp⟩)
    (fun s t u ⟨e1, h1⟩ ⟨e2, h2⟩ => ⟨e1 ++ e2, by rw [h2, h1, List.append_assoc]⟩)
    (fun s a s' hs => ?_) ridges st st' h
  rcases ridgeStep_ok_cases hs with rfl | ⟨far, rfl⟩
  · exact ⟨[], by simp⟩
  · exact ⟨[far], rfl⟩

/-- A successful site step appends exactly one region, and only appends to
the vertex table. -/
theorem processSite_shape {sq : ℚ → ℚ} {vor : VorDiagram} {center : Pt} {radius : ℚ}
    {st : List (List ℤ) × List Pt} {pr : ℕ × ℤ} {st' : List (List ℤ) × List Pt}
    (h : processSite sq vor center radius st pr = Except.ok st') :
    ∃ reg ext, st' = (st.1 ++ [reg], st.2 ++ ext) := by
  simp only [processSite] at h
  obtain ⟨rawReg, hraw, h⟩ := exceptBind_ok.mp h
  split at h
  · exact ⟨rawReg, [], by rw [← exceptPure_ok.mp h]; simp⟩
  · split at h
    · cases h
    · obtain ⟨res, hres, h⟩ := exceptBind_ok.mp h
      obtain ⟨pts, hpts, h⟩ := exceptBind_ok.mp h
      obtain ⟨ext, hext⟩ := ridgeFold_mono hres
      have hst := exceptPure_ok.mp h
      subst hst
      exact ⟨_, ext, by rw [hext]⟩

/-! ### Claim C10 — frame property of the reconstructor -/

/-- C10: the reconstructor never alters an existing vertex: the returned
vertex table is the input table with the synthesized vertices appended
after it, so every index below the input count still holds the input
vertex.  (The input diagram itself is untouched by construction in this
purely functional model; the content of the claim is the append-only
discipline of `new_vertices`.) -/
theorem C10_theorem (sq : ℚ → ℚ) (vor : VorDiagram) (radiusArg : Option ℚ)
    (rv : List (List ℤ) × List Pt)
    (hok : voronoi_finite_polygons_2d sq vor radiusArg = Except.ok rv) :
    ∃ ext, rv.2 = vor.vertices ++ ext ∧ rv.2.take vor.vertices.length = vor.vertices := by
  unfold voronoi_finite_polygons_2d at hok
  obtain ⟨ext, hext⟩ := foldlM_rel (R := fun s s' => ∃ e, s'.2 = s.2 ++ e)
    (fun s => ⟨[], by simp⟩)
    (fun s t u ⟨e1, h1⟩ ⟨e2, h2⟩ => ⟨e1 ++ e2, by rw [h2, h1, List.append_assoc]⟩)
    (fun s a s' hs => by
      obtain ⟨reg, e, rfl⟩ := processSite_shape hs
      exact ⟨e, rfl⟩)
    vor.point_region.enum ([], vor.vertices) rv hok
  exact ⟨ext, hext, by rw [hext]; exact List.take_left _ _⟩

theorem C10_witness :
    voronoi_finite_polygons_2d qSqrt cex2Diagram none =
      Except.ok ([[0, 1], [0, 2]], [⟨5, 7⟩, ⟨5, 7⟩, ⟨5, 7⟩]) ∧
    ∃ ext, ([⟨5, 7⟩, ⟨5, 7⟩, ⟨5, 7⟩] : List Pt) = cex2Diagram.vertices ++ ext ∧
      ([⟨5, 7⟩, ⟨5, 7⟩, ⟨5, 7⟩] : List Pt).take cex2Diagram.vertices.length =
        cex2Diagram.vertices :=
  ⟨by with_unfolding_all decide,
   C10_theorem qSqrt cex2Diagram none ([[0, 1], [0, 2]], [⟨5, 7⟩, ⟨5, 7⟩, ⟨5, 7⟩])
     (by with_unfolding_all decide)⟩

/-! ### Claim C3 — the default radius -/

theorem foldl_max_ge_init (t : List ℚ) : ∀ init : ℚ, init ≤ t.foldl max init := by
  induction t with
  | nil => intro init; exact le_refl _
  | cons b t ih =>
    intro init
    exact le_trans (le_max_left init b) (ih (max init b))

theorem foldl_max_ge_mem {t : List ℚ} {x : ℚ} (hx : x ∈ t) :
    ∀ init : ℚ, x ≤ t.foldl max init := by
  induction t with
  | nil => cases hx
  | cons b t ih =>
    intro init
    rcases List.mem_cons.mp hx with rfl | hx'
    · exact le_trans (le_max_right init x) (foldl_max_ge_init t (max init x))
    · exact ih hx' (max init b)

theorem le_listMax {l : List ℚ} {x : ℚ} (hx : x ∈ l) : x ≤ listMax l := by
  cases l with
  | nil => cases hx
  | cons a t =>
    rcases List.mem_cons.mp hx with rfl | hx'
    · exact foldl_max_ge_init t x
    · exact foldl_max_ge_mem hx' a

theorem foldl_min_le_init (t : List ℚ) : ∀ init : ℚ, t.foldl min init ≤ init := by
  induction t with
  | nil => intro init; exact le_refl _
  | cons b t ih =>
    intro init
    exact le_trans (ih (min init b)) (min_le_left init b)

theorem foldl_min_le_mem {t : List ℚ} {x : ℚ} (hx : x ∈ t) :
    ∀ init : ℚ, t.foldl min init ≤ x := by
  induction t with
  | nil => cases hx
  | cons b t ih =>
    intro init
    rcases List.mem_cons.mp hx with rfl | hx'
    · exact le_trans (foldl_min_le_init t (min init x)) (min_le_right init x)
    · exact ih hx' (min init b)

theorem listMin_le {l : List ℚ} {x : ℚ} (hx : x ∈ l) : listMin l ≤ x := by
  cases l with
  | nil => cases hx
  | cons a t =>
    rcases List.mem_cons.mp hx with rfl | hx'
    · exact foldl_min_le_init t x
    · exact foldl_min_le_mem hx' a

theorem mem_flatCoords {pts : List Pt} {p : Pt} (hp : p ∈ pts) :
    p.x ∈ flatCoords pts ∧ p.y ∈ flatCoords pts := by
  constructor <;>
  · unfold flatCoords
    rw [List.mem_flatten]
    exact ⟨[p.x, p.y], List.mem_map_of_mem _ hp, by simp⟩

/-- C3 fails on the code: the default radius is
`2 * (max coordinate − min coordinate)` over the **flattened** coordinate
array, which for the sites `(0,0)` and `(1,1)` gives `2`, strictly below
`2 ×` their Euclidean span `√2`: `2² < 2² · distSq = 8`. -/
theorem C3_counterexample :
    defaultRadius [⟨0, 0⟩, ⟨1, 1⟩] = 2 ∧
    (0 : ℚ) ≤ defaultRadius [⟨0, 0⟩, ⟨1, 1⟩] ∧
    distSq ⟨0, 0⟩ ⟨1, 1⟩ = 2 ∧
    defaultRadius [⟨0, 0⟩, ⟨1, 1⟩] * defaultRadius [⟨0, 0⟩, ⟨1, 1⟩] <
      (2 * 2) * distSq ⟨0, 0⟩ ⟨1, 1⟩ := by
  with_unfolding_all decide

/-- C3 amended: the default radius (`vor.points.ptp().max() * 2`) is twice
the peak-to-peak range of the flattened coordinate array; it dominates
twice the maximum pairwise **per-axis** span of the sites (but not twice
the maximum pairwise Euclidean distance, see the counterexample). -/
theorem C3_amended (pts : List Pt) (p q : Pt) (hp : p ∈ pts) (hq : q ∈ pts) :
    2 * |p.x - q.x| ≤ defaultRadius pts ∧ 2 * |p.y - q.y| ≤ defaultRadius pts := by
  obtain ⟨hpx, hpy⟩ := mem_flatCoords hp
  obtain ⟨hqx, hqy⟩ := mem_flatCoords hq
  unfold defaultRadius ptpFlat
  constructor
  · have h1 : |p.x - q.x| ≤ listMax (flatCoords pts) - listMin (flatCoords pts) :=
      abs_sub_le_iff.mpr
        ⟨sub_le_sub (le_listMax hpx) (listMin_le hqx),
         sub_le_sub (le_listMax hqx) (listMin_le hpx)⟩
    linarith
  · have h1 : |p.y - q.y| ≤ listMax (flatCoords pts) - listMin (flatCoords pts) :=
      abs_sub_le_iff.mpr
        ⟨sub_le_sub (le_listMax hpy) (listMin_le hqy),
         sub_le_sub (le_listMax hqy) (listMin_le hpy)⟩
    linarith

theorem C3_amended_witness :
    ((⟨0, 0⟩ : Pt) ∈ ([⟨0, 0⟩, ⟨3, 4⟩] : List Pt)) ∧
    ((⟨3, 4⟩ : Pt) ∈ ([⟨0, 0⟩, ⟨3, 4⟩] : List Pt)) ∧
    (2 * |(0 : ℚ) - 3| ≤ defaultRadius [⟨0, 0⟩, ⟨3, 4⟩] ∧
      2 * |(0 : ℚ) - 4| ≤ defaultRadius [⟨0, 0⟩, ⟨3, 4⟩]) :=
  ⟨by with_unfolding_all decide, by with_unfolding_all decide,
   C3_amended [⟨0, 0⟩, ⟨3, 4⟩] ⟨0, 0⟩ ⟨3, 4⟩ (by with_unfolding_all decide)
     (by with_unfolding_all decide)⟩

/-! ### Claim C2 — a ridge with both endpoints unbounded -/

/-- C2 fails on the code: on a diagram whose only ridge is `(-1, -1)` the
reconstructor raises nothing and happily returns polygons — the `−1`
endpoint is consumed by Python negative indexing (see `C2_amended`). -/
theorem C2_counterexample :
    voronoi_finite_polygons_2d qSqrt cex2Diagram none =
      Except.ok ([[0, 1], [0, 2]], [⟨5, 7⟩, ⟨5, 7⟩, ⟨5, 7⟩]) := by
  with_unfolding_all decide

/-- C2 amended: on a ridge whose two endpoints are both `−1`, the swap
keeps `v2 = −1`, `v1 = −1 < 0` sends the loop into the synthesis branch,
and `vor.vertices[-1]` resolves — Python style — to the **last** input
vertex, from which a far point is synthesized and appended; no failure of
any kind is raised (an `IndexError` would occur only when the vertex table
is empty). -/
theorem C2_amended (sq : ℚ → ℚ) (vor : VorDiagram) (center : Pt) (radius : ℚ)
    (p1 p2 : ℤ) (st : List ℤ × List Pt) (q1 q2 : Pt)
    (hq1 : pyGet vor.points p1 = Except.ok q1)
    (hq2 : pyGet vor.points p2 = Except.ok q2)
    (hvne : vor.vertices ≠ []) :
    ∃ d, ridgeStep sq vor center radius p1 st (p2, -1, -1) =
      Except.ok (st.1 ++ [(st.2.length : ℤ)],
        st.2 ++ [Pt.add (vor.vertices.getLast hvne) d]) := by
  refine ⟨Pt.smul radius
      (Pt.smul (npSign (Pt.dot (Pt.sub (Pt.smul (1 / 2) (Pt.add q1 q2)) center)
          ⟨-(Pt.smul (1 / pnorm sq (Pt.sub q2 q1)) (Pt.sub q2 q1)).y,
            (Pt.smul (1 / pnorm sq (Pt.sub q2 q1)) (Pt.sub q2 q1)).x⟩))
        ⟨-(Pt.smul (1 / pnorm sq (Pt.sub q2 q1)) (Pt.sub q2 q1)).y,
          (Pt.smul (1 / pnorm sq (Pt.sub q2 q1)) (Pt.sub q2 q1)).x⟩), ?_⟩
  simp only [ridgeStep]
  norm_num
  rw [hq1]
  simp only [Bind.bind, Except.bind]
  rw [hq2]
  simp only [Bind.bind, Except.bind]
  rw [pyGet_neg_one hvne]
  rfl

theorem C2_witness :
    ∃ d, ridgeStep qSqrt cex2Diagram (centerOf cex2Diagram.points) 2 0
        ([0], [⟨5, 7⟩]) (1, -1, -1) =
      Except.ok ([0, 1],
        [⟨5, 7⟩] ++ [Pt.add (cex2Diagram.vertices.getLast (by with_unfolding_all decide)) d]) :=
  C2_amended qSqrt cex2Diagram (centerOf cex2Diagram.points) 2 0 1 ([0], [⟨5, 7⟩])
    ⟨0, 0⟩ ⟨1, 0⟩ (by with_unfolding_all decide) (by with_unfolding_all decide)
    (by with_unfolding_all decide)

/-! ### Claim C1 — a region containing no site -/

theorem findIdx?_all_false {l : List Bool} (h : ∀ b ∈ l, b = false) :
    ∀ i, List.findIdx? (fun b => b) l i = none := by
  induction l with
  | nil => intro i; exact List.findIdx?_nil
  | cons b t ih =>
    intro i
    rw [List.findIdx?_cons]
    rw [h b (List.mem_cons_self b t)]
    simp only [Bool.false_eq_true, if_false]
    exact ih (fun x hx => h x (List.mem_cons_of_mem b hx)) (i + 1)

/-- `np.argmax` of an all-`False` boolean array is 0. -/
theorem npArgmax_all_false {l : List Bool} (h : ∀ b ∈ l, b = false) : npArgmax l = 0 := by
  unfold npArgmax
  rw [findIdx?_all_false h 0]

theorem mem_upsert {res : List (ℕ × List Char × List Char)} {k : ℕ}
    {v : List Char × List Char} {row : ℕ × List Char × List Char}
    (h : row ∈ upsert res k v) : row.1 = k ∨ row ∈ res := by
  unfold upsert at h
  split at h
  · obtain ⟨r, hr, hrow⟩ := List.mem_map.mp h
    by_cases hk : r.1 = k
    · rw [if_pos hk] at hrow; left; rw [← hrow]
    · rw [if_neg hk] at hrow; right; rw [← hrow]; exact hr
  · rcases List.mem_append.mp h with hr | hr
    · right; exact hr
    · left; rw [List.mem_singleton.mp hr]

/-- C1 fails on the code: with a containment test that never succeeds (the
`UnassignedRegion` situation), the pipeline does not fail — `np.argmax`
over an all-`False` list yields 0, the region is assigned to site 0, and
the batch output is persisted. -/
theorem C1_counterexample :
    save_2d_area qSqrt noContainOps constA cex1Diagram =
      Except.ok [(0, ['a'], ['a'])] := by
  with_unfolding_all decide

/-- C1 amended: when no site's point-in-polygon test is true for any
region, no error is raised: every region is silently assigned site index 0
(`np.argmax` of all-`False`), and the resulting rows are persisted. -/
theorem C1_amended (ops : GeomOps) (numStr : ℚ → List Char) (sites : List Pt)
    (regions : List (List ℤ)) (vertices : List Pt)
    (rows : List (ℕ × List Char × List Char))
    (hok : saveRows ops numStr sites regions vertices = Except.ok rows)
    (hnone : ∀ v s, ops.contains v s = false) :
    ∀ row ∈ rows, row.1 = 0 := by
  unfold saveRows at hok
  obtain ⟨rows0, hfold, hpure⟩ := exceptBind_ok.mp hok
  have hperm := List.perm_insertionSort
    (fun (a b : ℕ × List Char × List Char) => a.1 ≤ b.1) rows0
  rw [← exceptPure_ok.mp hpure]
  have hP : ∀ row ∈ rows0, row.1 = 0 := by
    refine foldlM_invariant (P := fun res => ∀ row ∈ res, row.1 = 0)
      (fun s a s' hs hPs => ?_) regions [] rows0 hfold (by intro r hr; cases hr)
    obtain ⟨v, hv, hs⟩ := exceptBind_ok.mp hs
    have hs' := exceptPure_ok.mp hs
    intro row hrow
    rw [← hs'] at hrow
    have hunit : npArgmax (sites.map (fun s => ops.contains v s)) = 0 :=
      npArgmax_all_false (by
        intro b hb
        obtain ⟨s0, _, rfl⟩ := List.mem_map.mp hb
        exact hnone v s0)
    rw [hunit] at hrow
    rcases mem_upsert hrow with h0 | hmem
    · exact h0
    · exact hPs row hmem
  intro row hrow
  exact hP row (hperm.mem_iff.mp hrow)

theorem C1_witness :
    saveRows noContainOps constA [⟨0, 0⟩] [[0]] [⟨1, 2⟩] =
      Except.ok [(0, ['a'], ['a'])] ∧
    ∀ row ∈ ([(0, ['a'], ['a'])] : List (ℕ × List Char × List Char)), row.1 = 0 :=
  ⟨by with_unfolding_all decide,
   C1_amended noContainOps constA [⟨0, 0⟩] [[0]] [⟨1, 2⟩] [(0, ['a'], ['a'])]
     (by with_unfolding_all decide) (fun v s => rfl)⟩

/-! ### Claim C5 — first-match site assignment -/

theorem findIdx?_some_spec :
    ∀ {l : List Bool} {k : ℕ}, List.findIdx? (fun b => b) l = some k →
      l[k]? = some true ∧ ∀ j < k, l[j]? = some false := by
  intro l
  induction l with
  | nil => intro k h; rw [List.findIdx?_nil] at h; cases h
  | cons b t ih =>
    intro k h
    rw [List.findIdx?_cons] at h
    by_cases hb : b = true
    · rw [hb, if_pos rfl] at h
      cases h
      exact ⟨by rw [List.getElem?_cons_zero, hb], fun j hj => absurd hj (Nat.not_lt_zero j)⟩
    · rw [if_neg (by simp [hb])] at h
      rw [List.findIdx?_succ] at h
      obtain ⟨k', hk', rfl⟩ := Option.map_eq_some'.mp h
      obtain ⟨h1, h2⟩ := ih hk'
      refine ⟨by rw [List.getElem?_cons_succ]; exact h1, ?_⟩
      intro j hj
      cases j with
      | zero =>
        rw [List.getElem?_cons_zero]
        simp [Bool.not_eq_true] at hb
        rw [hb]
      | succ j' =>
        rw [List.getElem?_cons_succ]
        exact h2 j' (Nat.lt_of_succ_lt_succ hj)

theorem findIdx?_of_mem_true :
    ∀ {l : List Bool}, true ∈ l → ∃ k, List.findIdx? (fun b => b) l = some k := by
  intro l
  induction l with
  | nil => intro h; cases h
  | cons b t ih =>
    intro h
    by_cases hb : b = true
    · exact ⟨0, by rw [List.findIdx?_cons, hb, if_pos rfl]⟩
    · rcases List.mem_cons.mp h with hh | ht
      · exact absurd hh.symm hb
      · obtain ⟨k, hk⟩ := ih ht
        refine ⟨k + 1, ?_⟩
        rw [List.findIdx?_cons, if_neg (by simp [hb]), List.findIdx?_succ, hk]
        rfl

/-- The first-`True` characterization of the boolean `np.argmax`. -/
theorem npArgmax_spec {l : List Bool} (hex : true ∈ l) :
    l[npArgmax l]? = some true ∧ ∀ j < npArgmax l, l[j]? = some false := by
  obtain ⟨k, hk⟩ := findIdx?_of_mem_true hex
  unfold npArgmax
  rw [hk]
  exact findIdx?_some_spec hk

/-- C5: when some site passes the point-in-polygon test against the
pre-clip polygon, the assigner picks the **first** such site index — a
characterization that involves only the test values, hence is independent
of any distance to the polygon's centroid. -/
theorem C5_theorem (ops : GeomOps) (poly : List Pt) (sites : List Pt)
    (hex : ∃ s ∈ sites, ops.contains poly s = true) :
    (∃ su, sites[npArgmax (List.map (fun s => ops.contains poly s) sites)]? = some su ∧
      ops.contains poly su = true) ∧
    ∀ j < npArgmax (List.map (fun s => ops.contains poly s) sites),
      ∃ sj, sites[j]? = some sj ∧ ops.contains poly sj = false := by
  obtain ⟨s0, hs0, hc0⟩ := hex
  have hex' : true ∈ List.map (fun s => ops.contains poly s) sites := by
    rw [List.mem_map]
    exact ⟨s0, hs0, hc0⟩
  obtain ⟨h1, h2⟩ := npArgmax_spec hex'
  constructor
  · rw [List.getElem?_map] at h1
    obtain ⟨su, hsu, hval⟩ := Option.map_eq_some'.mp h1
    exact ⟨su, hsu, hval⟩
  · intro j hj
    have := h2 j hj
    rw [List.getElem?_map] at this
    obtain ⟨sj, hsj, hval⟩ := Option.map_eq_some'.mp this
    exact ⟨sj, hsj, hval⟩

theorem C5_witness :
    (∃ s ∈ ([⟨9, 9⟩, ⟨2, 0⟩, ⟨2, 0⟩] : List Pt),
      memContainOps.contains [⟨2, 0⟩] s = true) ∧
    ((∃ su, ([⟨9, 9⟩, ⟨2, 0⟩, ⟨2, 0⟩] : List Pt)[npArgmax
          (List.map (fun s => memContainOps.contains [⟨2, 0⟩] s)
            [⟨9, 9⟩, ⟨2, 0⟩, ⟨2, 0⟩])]? = some su ∧
        memContainOps.contains [⟨2, 0⟩] su = true) ∧
      ∀ j < npArgmax (List.map (fun s => memContainOps.contains [⟨2, 0⟩] s)
          [⟨9, 9⟩, ⟨2, 0⟩, ⟨2, 0⟩]),
        ∃ sj, ([⟨9, 9⟩, ⟨2, 0⟩, ⟨2, 0⟩] : List Pt)[j]? = some sj ∧
          memContainOps.contains [⟨2, 0⟩] sj = false) :=
  ⟨by with_unfolding_all decide,
   C5_theorem memContainOps [⟨2, 0⟩] [⟨9, 9⟩, ⟨2, 0⟩, ⟨2, 0⟩]
     (by with_unfolding_all decide)⟩

/-! ### Claim C8 — shape of the persisted table -/

theorem upsert_keys_nodup {res : List (ℕ × List Char × List Char)} {k : ℕ}
    {v : List Char × List Char} (h : (res.map Prod.fst).Nodup) :
    ((upsert res k v).map Prod.fst).Nodup := by
  unfold upsert
  split
  · have hkeys : (res.map (fun row => if row.1 = k then (k, v) else row)).map Prod.fst =
        res.map Prod.fst := by
      rw [List.map_map]
      refine List.map_congr_left ?_
      intro row _
      by_cases hk : row.1 = k
      · simp [hk]
      · simp [hk]
    rw [hkeys]
    exact h
  · next hany =>
    rw [List.map_append, List.nodup_append]
    refine ⟨h, List.nodup_singleton k, ?_⟩
    intro a ha hb
    simp only [Bool.not_eq_true] at hany
    rw [List.any_eq_false] at hany
    simp only [decide_eq_true_eq] at hany
    have hak : a = k := by simpa using hb
    subst hak
    obtain ⟨row, hrow, hfst⟩ := List.mem_map.mp ha
    exact hany row hrow hfst

/-- C8 fails on the code: with two sites and two regions neither of which
contains any site, both regions are assigned unit 0 and the second
`res.loc[0] = …` write overwrites the first — the persisted table has a
single row although there are two sites, so site 1 maps to no polygon. -/
theorem C8_counterexample :
    save_2d_area qSqrt noContainOps constA cex8Diagram =
      Except.ok [(0, ['a'], ['a'])] ∧
    cex8Diagram.points.length = 2 := by
  with_unfolding_all decide

/-- C8 amended: the persisted table is keyed by **assigned unit**, with
strictly ascending keys — exactly one row per distinct assigned unit
(`res.loc` overwrites, `sort_index()` sorts).  Only when the per-region
assigned units happen to be exactly the site indices does this give one
row per site. -/
theorem C8_amended (ops : GeomOps) (numStr : ℚ → List Char) (sites : List Pt)
    (regions : List (List ℤ)) (vertices : List Pt)
    (rows : List (ℕ × List Char × List Char))
    (hok : saveRows ops numStr sites regions vertices = Except.ok rows) :
    List.Pairwise (· < ·) (rows.map Prod.fst) := by
  unfold saveRows at hok
  obtain ⟨rows0, hfold, hpure⟩ := exceptBind_ok.mp hok
  have hnodup0 : (rows0.map Prod.fst).Nodup := by
    refine foldlM_invariant (P := fun res => (res.map Prod.fst).Nodup)
      (fun s a s' hs hPs => ?_) regions [] rows0 hfold List.nodup_nil
    obtain ⟨v, hv, hs⟩ := exceptBind_ok.mp hs
    rw [← exceptPure_ok.mp hs]
    exact upsert_keys_nodup hPs
  have hperm := List.perm_insertionSort
    (fun (a b : ℕ × List Char × List Char) => a.1 ≤ b.1) rows0
  have hsorted := @List.sorted_insertionSort (ℕ × List Char × List Char)
    (fun a b => a.1 ≤ b.1) (fun a b => Nat.decLe a.1 b.1)
    ⟨fun a b => Nat.le_total a.1 b.1⟩ ⟨fun a b c hab hbc => le_trans hab hbc⟩ rows0
  rw [← exceptPure_ok.mp hpure]
  have hle : ((List.insertionSort (fun a b => a.1 ≤ b.1) rows0).map Prod.fst).Pairwise (· ≤ ·) :=
    List.pairwise_map.mpr hsorted
  have hnodup : ((List.insertionSort (fun a b => a.1 ≤ b.1) rows0).map Prod.fst).Nodup :=
    ((hperm.map Prod.fst).nodup_iff).mpr hnodup0
  exact (hle.and hnodup).imp (fun hab => lt_of_le_of_ne hab.1 hab.2)

theorem C8_witness :
    saveRows memContainOps constA [⟨0, 0⟩, ⟨2, 0⟩] [[0], [1]] [⟨0, 0⟩, ⟨2, 0⟩] =
      Except.ok [(0, ['a'], ['a']), (1, ['a'], ['a'])] ∧
    List.Pairwise (· < ·)
      (([(0, ['a'], ['a']), (1, ['a'], ['a'])] :
        List (ℕ × List Char × List Char)).map Prod.fst) :=
  ⟨by with_unfolding_all decide,
   C8_amended memContainOps constA [⟨0, 0⟩, ⟨2, 0⟩] [[0], [1]] [⟨0, 0⟩, ⟨2, 0⟩]
     [(0, ['a'], ['a']), (1, ['a'], ['a'])] (by with_unfolding_all decide)⟩

/-! ### Claim C9 — serialization round trip -/

theorem splitComma_append :
    ∀ (p : List Char), ',' ∉ p →
      ∀ (l w : List Char) (ws : List (List Char)),
        splitComma l = w :: ws → splitComma (p ++ l) = (p ++ w) :: ws := by
  intro p
  induction p with
  | nil =>
    intro _ l w ws hl
    simpa using hl
  | cons c p' ih =>
    intro hp l w ws hl
    have hc : ¬ c = ',' := fun hcc => hp (hcc ▸ List.mem_cons_self c p')
    have hp' : ',' ∉ p' := fun hmem => hp (List.mem_cons_of_mem c hmem)
    have hrec := ih hp' l w ws hl
    show splitComma (c :: (p' ++ l)) = ((c :: p') ++ w) :: ws
    unfold splitComma
    rw [if_neg hc, hrec]
    rfl

theorem splitComma_no_comma {p : List Char} (hp : ',' ∉ p) : splitComma p = [p] := by
  have := splitComma_append p hp [] [] [] rfl
  simpa using this

theorem splitComma_joinComma :
    ∀ {parts : List (List Char)}, parts ≠ [] → (∀ p ∈ parts, ',' ∉ p) →
      splitComma (joinComma parts) = parts := by
  intro parts
  induction parts with
  | nil => intro h; exact absurd rfl h
  | cons p tail ih =>
    intro _ hnc
    cases tail with
    | nil =>
      show splitComma (joinComma [p]) = [p]
      unfold joinComma
      exact splitComma_no_comma (hnc p (List.mem_cons_self p []))
    | cons q rest =>
      have htail : splitComma (joinComma (q :: rest)) = q :: rest :=
        ih (List.cons_ne_nil q rest) (fun x hx => hnc x (List.mem_cons_of_mem p hx))
      have hl : splitComma (',' :: joinComma (q :: rest)) = [] :: q :: rest := by
        unfold splitComma
        rw [if_pos rfl, htail]
      have hres := splitComma_append p (hnc p (List.mem_cons_self p (q :: rest)))
        (',' :: joinComma (q :: rest)) [] (q :: rest) hl
      show splitComma (p ++ ',' :: joinComma (q :: rest)) = p :: q :: rest
      rw [hres, List.append_nil]

/-- C9: parsing the comma-joined coordinate string emitted by the
serializer — the way `src/app/figures_generator.py` does, `split(",")`
then one `float(...)` per part — reproduces the coordinate sequence
exactly, for any coordinate printer/parser pair that round-trips on the
values at hand and prints no comma (Python's `str`/`float` pair does, by
the documented shortest-repr guarantee). -/
theorem C9_theorem (numStr : ℚ → List Char) (parseNum : List Char → ℚ)
    (xs : List ℚ) (hne : xs ≠ [])
    (hround : ∀ q ∈ xs, parseNum (numStr q) = q ∧ ',' ∉ numStr q) :
    (splitComma (joinComma (xs.map numStr))).map parseNum = xs := by
  rw [splitComma_joinComma (by simpa using hne) ?hc]
  case hc =>
    intro p hp
    obtain ⟨q, hq, rfl⟩ := List.mem_map.mp hp
    exact (hround q hq).2
  rw [List.map_map]
  have : ∀ q ∈ xs, (parseNum ∘ numStr) q = id q := fun q hq => (hround q hq).1
  rw [List.map_congr_left this, List.map_id]

theorem C9_witness :
    (([0, 1] : List ℚ) ≠ []) ∧
    (∀ q ∈ ([0, 1] : List ℚ),
      (fun s => if s = ['0'] then (0 : ℚ) else 1)
        ((fun q : ℚ => if q = 0 then ['0'] else ['1']) q) = q ∧
      ',' ∉ (fun q : ℚ => if q = 0 then ['0'] else ['1']) q) ∧
    (splitComma (joinComma (([0, 1] : List ℚ).map
        (fun q : ℚ => if q = 0 then ['0'] else ['1'])))).map
      (fun s => if s = ['0'] then (0 : ℚ) else 1) = [0, 1] :=
  ⟨by with_unfolding_all decide, by with_unfolding_all decide,
   C9_theorem (fun q : ℚ => if q = 0 then ['0'] else ['1'])
     (fun s => if s = ['0'] then (0 : ℚ) else 1) [0, 1]
     (by with_unfolding_all decide) (by with_unfolding_all decide)⟩

/-! ### Claim C4 — the synthesized far point -/

theorem Pt.smul_smul (a b : ℚ) (p : Pt) : Pt.smul a (Pt.smul b p) = Pt.smul (a * b) p := by
  simp [Pt.smul, mul_assoc]

theorem Pt.smul_comm (a b : ℚ) (p : Pt) : Pt.smul a (Pt.smul b p) = Pt.smul b (Pt.smul a p) := by
  rw [Pt.smul_smul, Pt.smul_smul, mul_comm]

/-- When a ridge has exactly one unbounded endpoint, a successful ridge
step appends exactly the far point the spec formula describes, anchored at
the ridge's finite endpoint. -/
theorem ridgeStep_fires {sq : ℚ → ℚ} {vor : VorDiagram} {center : Pt} {radius : ℚ}
    {p1 : ℤ} {st : List ℤ × List Pt} {p2 v1 v2 : ℤ} {st' : List ℤ × List Pt}
    (hone : (v1 < 0 ∧ 0 ≤ v2) ∨ (0 ≤ v1 ∧ v2 < 0))
    (h : ridgeStep sq vor center radius p1 st (p2, v1, v2) = Except.ok st') :
    ∃ q1 q2 base,
      pyGet vor.points p1 = Except.ok q1 ∧
      pyGet vor.points p2 = Except.ok q2 ∧
      pyGet vor.vertices (if v2 < 0 then v1 else v2) = Except.ok base ∧
      st' = (st.1 ++ [(st.2.length : ℤ)],
        st.2 ++ [specFarPoint sq center radius q1 q2 base]) := by
  simp only [ridgeStep] at h
  rcases hone with ⟨hv1, hv2⟩ | ⟨hv1, hv2⟩
  · rw [if_neg (not_lt.mpr hv2)] at h
    rw [if_neg (not_le.mpr hv1)] at h
    obtain ⟨q1, hq1, h⟩ := exceptBind_ok.mp h
    obtain ⟨q2, hq2, h⟩ := exceptBind_ok.mp h
    obtain ⟨base, hbase, h⟩ := exceptBind_ok.mp h
    refine ⟨q1, q2, base, hq1, hq2, hbase, ?_⟩
    rw [← exceptPure_ok.mp h]
    unfold specFarPoint
    rw [Pt.smul_comm]
  · rw [if_pos hv2] at h
    rw [if_neg (not_le.mpr hv2)] at h
    obtain ⟨q1, hq1, h⟩ := exceptBind_ok.mp h
    obtain ⟨q2, hq2, h⟩ := exceptBind_ok.mp h
    obtain ⟨base, hbase, h⟩ := exceptBind_ok.mp h
    refine ⟨q1, q2, base, hq1, hq2, hbase, ?_⟩
    rw [← exceptPure_ok.mp h]
    unfold specFarPoint
    rw [Pt.smul_comm]

/-- C4: every ridge of the region loop that has exactly one unbounded
endpoint contributes, to the returned vertex table, the far point
`finite endpoint + sign × normal × Radius` — tangent the normalized vector
between the two sites, normal the tangent rotated 90°, sign the sign of
`(ridge midpoint − center) · normal`, midpoint the mean of the two
adjacent sites (`specFarPoint` spells out exactly this spec sentence). -/
theorem C4_theorem (sq : ℚ → ℚ) (vor : VorDiagram) (center : Pt) (radius : ℚ)
    (p1 : ℤ) (ridges : List (ℤ × ℤ × ℤ)) (st st' : List ℤ × List Pt)
    (hfold : List.foldlM (ridgeStep sq vor center radius p1) st ridges = Except.ok st')
    (p2 v1 v2 : ℤ) (hmem : (p2, v1, v2) ∈ ridges)
    (hone : (v1 < 0 ∧ 0 ≤ v2) ∨ (0 ≤ v1 ∧ v2 < 0)) :
    ∃ q1 q2 base,
      pyGet vor.points p1 = Except.ok q1 ∧
      pyGet vor.points p2 = Except.ok q2 ∧
      pyGet vor.vertices (if v2 < 0 then v1 else v2) = Except.ok base ∧
      specFarPoint sq center radius q1 q2 base ∈ st'.2 := by
  induction ridges generalizing st with
  | nil => cases hmem
  | cons r rest ih =>
    rw [List.foldlM_cons] at hfold
    obtain ⟨st1, hstep, hrest⟩ := exceptBind_ok.mp hfold
    rcases List.mem_cons.mp hmem with rfl | hmem'
    · obtain ⟨q1, q2, base, hq1, hq2, hbase, rfl⟩ := ridgeStep_fires hone hstep
      refine ⟨q1, q2, base, hq1, hq2, hbase, ?_⟩
      obtain ⟨ext, hext⟩ := ridgeFold_mono hrest
      rw [hext]
      refine List.mem_append.mpr (Or.inl ?_)
      exact List.mem_append.mpr (Or.inr (List.mem_singleton.mpr rfl))
    · exact ih st1 hrest hmem'

theorem C4_witness :
    ∃ q1 q2 base,
      pyGet w4Diagram.points 0 = Except.ok q1 ∧
      pyGet w4Diagram.points 1 = Except.ok q2 ∧
      pyGet w4Diagram.vertices (if (0 : ℤ) < 0 then -1 else 0) = Except.ok base ∧
      specFarPoint qSqrt ⟨1, -1⟩ 2 q1 q2 base ∈
        (([0, 1], [⟨1, 1⟩, ⟨1, 3⟩]) : List ℤ × List Pt).2 :=
  C4_theorem qSqrt w4Diagram ⟨1, -1⟩ 2 0 [(1, -1, 0)] ([0], [⟨1, 1⟩])
    ([0, 1], [⟨1, 1⟩, ⟨1, 3⟩]) (by with_unfolding_all decide) 1 (-1) 0
    (by with_unfolding_all decide) (Or.inl (by with_unfolding_all decide))

/-! ### Claim C6 — validity of the returned region indices -/

theorem mapM_ok_length {α β : Type} {f : α → Except Err β} :
    ∀ {l : List α} {l' : List β}, List.mapM f l = Except.ok l' → l'.length = l.length := by
  intro l
  induction l with
  | nil =>
    intro l' h
    rw [List.mapM_nil] at h
    rw [← exceptPure_ok.mp h]
    rfl
  | cons a t ih =>
    intro l' h
    rw [List.mapM_cons] at h
    obtain ⟨b, hb, h⟩ := exceptBind_ok.mp h
    obtain ⟨bs, hbs, h⟩ := exceptBind_ok.mp h
    rw [← exceptPure_ok.mp h]
    simp [ih hbs]

/-- Entries of the region under construction stay nonnegative and within
the growing vertex table. -/
theorem ridgeFold_entries {sq : ℚ → ℚ} {vor : VorDiagram} {center : Pt} {radius : ℚ}
    {p1 : ℤ} {ridges : List (ℤ × ℤ × ℤ)} {st st' : List ℤ × List Pt}
    (h : List.foldlM (ridgeStep sq vor center radius p1) st ridges = Except.ok st')
    (hst : ∀ v ∈ st.1, 0 ≤ v ∧ v < (st.2.length : ℤ)) :
    ∀ v ∈ st'.1, 0 ≤ v ∧ v < (st'.2.length : ℤ) := by
  refine foldlM_invariant (P := fun s => ∀ v ∈ s.1, 0 ≤ v ∧ v < (s.2.length : ℤ))
    (fun s a s' hs hPs => ?_) ridges st st' h hst
  rcases ridgeStep_ok_cases hs with rfl | ⟨far, rfl⟩
  · exact hPs
  · intro v hv
    simp only [List.length_append, List.length_cons, List.length_nil]
    rcases List.mem_append.mp hv with hv' | hv'
    · obtain ⟨h1, h2⟩ := hPs v hv'
      exact ⟨h1, by push_cast; omega⟩
    · rw [List.mem_singleton.mp hv']
      constructor
      · exact Int.natCast_nonneg _
      · push_cast; omega

/-- A successful site step appends one region whose entries are
nonnegative, valid indices into the extended vertex table. -/
theorem processSite_entries {sq : ℚ → ℚ} {vor : VorDiagram} {center : Pt} {radius : ℚ}
    {st : List (List ℤ) × List Pt} {pr : ℕ × ℤ} {st' : List (List ℤ) × List Pt}
    (hWF : ∀ reg ∈ vor.regions, ∀ v ∈ reg, v < (vor.vertices.length : ℤ))
    (hlen : vor.vertices.length ≤ st.2.length)
    (h : processSite sq vor center radius st pr = Except.ok st') :
    ∃ reg ext, st' = (st.1 ++ [reg], st.2 ++ ext) ∧
      ∀ v ∈ reg, 0 ≤ v ∧ v < (st'.2.length : ℤ) := by
  simp only [processSite] at h
  obtain ⟨rawReg, hraw, h⟩ := exceptBind_ok.mp h
  have hrawmem := pyGet_ok_mem hraw
  split at h
  · next hfin =>
    have hst := exceptPure_ok.mp h
    subst hst
    refine ⟨rawReg, [], by simp, ?_⟩
    intro v hv
    refine ⟨of_decide_eq_true (List.all_eq_true.mp hfin v hv), ?_⟩
    calc v < (vor.vertices.length : ℤ) := hWF rawReg hrawmem v hv
      _ ≤ (st.2.length : ℤ) := by exact_mod_cast hlen
  · split at h
    · cases h
    · obtain ⟨res, hres, h⟩ := exceptBind_ok.mp h
      obtain ⟨pts, hpts, h⟩ := exceptBind_ok.mp h
      obtain ⟨ext, hext⟩ := ridgeFold_mono hres
      have hfoldentries := ridgeFold_entries hres (by
        intro v hv
        obtain ⟨hv1, hv2⟩ := List.mem_filter.mp hv
        refine ⟨of_decide_eq_true hv2, ?_⟩
        calc v < (vor.vertices.length : ℤ) := hWF rawReg hrawmem v hv1
          _ ≤ (st.2.length : ℤ) := by exact_mod_cast hlen)
      have hst := exceptPure_ok.mp h
      subst hst
      have hptslen : pts.length = res.1.length := mapM_ok_length hpts
      have hperm : List.Perm ((List.insertionSort
          (fun a b => angLE (Pt.sub a.2 (centerOf pts)) (Pt.sub b.2 (centerOf pts)) = true)
          (res.1.zip pts)).map Prod.fst) res.1 := by
        have h1 := (List.perm_insertionSort
          (fun a b => angLE (Pt.sub a.2 (centerOf pts)) (Pt.sub b.2 (centerOf pts)) = true)
          (res.1.zip pts)).map Prod.fst
        rw [List.map_fst_zip res.1 pts (le_of_eq hptslen.symm)] at h1
        exact h1
      refine ⟨_, ext, by rw [hext], ?_⟩
      intro v hv
      exact hfoldentries v (hperm.mem_iff.mp hv)

/-- C6: on a well-formed input diagram (region indices below the input
vertex count — scipy guarantees this), every vertex index in every region
returned by the reconstructor is nonnegative (never the sentinel −1) and
a valid index into the returned vertex table.  Coordinates are exact
rationals in this model, so non-finite values cannot arise. -/
theorem C6_theorem (sq : ℚ → ℚ) (vor : VorDiagram) (radiusArg : Option ℚ)
    (regs : List (List ℤ)) (verts : List Pt)
    (hWF : ∀ reg ∈ vor.regions, ∀ v ∈ reg, v < (vor.vertices.length : ℤ))
    (hok : voronoi_finite_polygons_2d sq vor radiusArg = Except.ok (regs, verts)) :
    ∀ reg ∈ regs, ∀ v ∈ reg, 0 ≤ v ∧ v < (verts.length : ℤ) := by
  unfold voronoi_finite_polygons_2d at hok
  have hinv := foldlM_invariant
    (P := fun st : List (List ℤ) × List Pt =>
      vor.vertices.length ≤ st.2.length ∧
      ∀ reg ∈ st.1, ∀ v ∈ reg, 0 ≤ v ∧ v < (st.2.length : ℤ))
    (fun s a s' hs hPs => ?step) vor.point_region.enum ([], vor.vertices) (regs, verts)
    hok ⟨le_refl _, fun reg hreg => absurd hreg (List.not_mem_nil reg)⟩
  · exact hinv.2
  case step =>
    obtain ⟨hlen, hregs⟩ := hPs
    obtain ⟨reg, ext, rfl, hreg⟩ := processSite_entries hWF hlen hs
    refine ⟨by simp only [List.length_append]; omega, ?_⟩
    intro r hr v hv
    rcases List.mem_append.mp hr with hr' | hr'
    · obtain ⟨h1, h2⟩ := hregs r hr' v hv
      refine ⟨h1, ?_⟩
      simp only [List.length_append]
      push_cast
      omega
    · rw [List.mem_singleton.mp hr'] at hv
      exact hreg v hv

theorem C6_witness :
    (∀ reg ∈ cex2Diagram.regions, ∀ v ∈ reg, v < (cex2Diagram.vertices.length : ℤ)) ∧
    ∀ reg ∈ ([[0, 1], [0, 2]] : List (List ℤ)), ∀ v ∈ reg,
      0 ≤ v ∧ v < (([⟨5, 7⟩, ⟨5, 7⟩, ⟨5, 7⟩] : List Pt).length : ℤ) :=
  ⟨by with_unfolding_all decide,
   C6_theorem qSqrt cex2Diagram none [[0, 1], [0, 2]] [⟨5, 7⟩, ⟨5, 7⟩, ⟨5, 7⟩]
     (by with_unfolding_all decide) (by with_unfolding_all decide)⟩

/-! ### The exact `arctan2` order: totality and transitivity -/

theorem atanRank_le_seven (p : Pt) : atanRank p ≤ 7 := by
  unfold atanRank
  split_ifs <;> omega

theorem atanRank_eq_zero {p : Pt} (h : atanRank p = 0) : p.x < 0 ∧ p.y < 0 := by
  unfold atanRank at h
  split_ifs at h with h0 h1 h2 h3 h4 h5 h6
  all_goals first | omega | exact h0

theorem atanRank_eq_one {p : Pt} (h : atanRank p = 1) : p.x = 0 ∧ p.y < 0 := by
  unfold atanRank at h
  split_ifs at h with h0 h1 h2 h3 h4 h5 h6 <;> first | omega | exact h1

theorem atanRank_eq_two {p : Pt} (h : atanRank p = 2) : 0 < p.x ∧ p.y < 0 := by
  unfold atanRank at h
  split_ifs at h with h0 h1 h2 h3 h4 h5 h6 <;> first | omega | exact h2

theorem atanRank_eq_three {p : Pt} (h : atanRank p = 3) : p.y = 0 ∧ 0 ≤ p.x := by
  unfold atanRank at h
  split_ifs at h with h0 h1 h2 h3 h4 h5 h6 <;> first | omega | exact h3

theorem atanRank_eq_four {p : Pt} (h : atanRank p = 4) : 0 < p.x ∧ 0 < p.y := by
  unfold atanRank at h
  split_ifs at h with h0 h1 h2 h3 h4 h5 h6 <;> first | omega | exact h4

theorem atanRank_eq_five {p : Pt} (h : atanRank p = 5) : p.x = 0 ∧ 0 < p.y := by
  unfold atanRank at h
  split_ifs at h with h0 h1 h2 h3 h4 h5 h6 <;> first | omega | exact h5

theorem atanRank_eq_six {p : Pt} (h : atanRank p = 6) : p.x < 0 ∧ 0 < p.y := by
  unfold atanRank at h
  split_ifs at h with h0 h1 h2 h3 h4 h5 h6 <;> first | omega | exact h6

theorem atanRank_eq_seven {p : Pt} (h : atanRank p = 7) : p.y = 0 ∧ p.x < 0 := by
  unfold atanRank at h
  split_ifs at h with h0 h1 h2 h3 h4 h5 h6 <;> try omega
  rcases lt_trichotomy p.y 0 with hy | hy | hy
  · rcases lt_trichotomy p.x 0 with hx | hx | hx
    · exact absurd ⟨hx, hy⟩ h0
    · exact absurd ⟨hx, hy⟩ h1
    · exact absurd ⟨hx, hy⟩ h2
  · rcases lt_trichotomy p.x 0 with hx | hx | hx
    · exact ⟨hy, hx⟩
    · exact absurd ⟨hy, le_of_eq hx.symm⟩ h3
    · exact absurd ⟨hy, le_of_lt hx⟩ h3
  · rcases lt_trichotomy p.x 0 with hx | hx | hx
    · exact absurd ⟨hx, hy⟩ h6
    · exact absurd ⟨hx, hy⟩ h5
    · exact absurd ⟨hx, hy⟩ h4

/-- Transitivity of the cross-product comparison for three vectors in the
open first quadrant. -/
theorem crossTransQ1 {a1 a2 b1 b2 c1 c2 : ℚ}
    (ha2 : 0 < a2) (hb2 : 0 < b2) (hc2 : 0 < c2)
    (h1 : 0 ≤ a1 * b2 - a2 * b1) (h2 : 0 ≤ b1 * c2 - b2 * c1) :
    0 ≤ a1 * c2 - a2 * c1 := by
  have e1 : 0 ≤ (a1 * b2 - a2 * b1) * c2 := mul_nonneg h1 (le_of_lt hc2)
  have e2 : 0 ≤ (b1 * c2 - b2 * c1) * a2 := mul_nonneg h2 (le_of_lt ha2)
  have e3 : 0 ≤ b2 * (a1 * c2 - a2 * c1) := by nlinarith [e1, e2]
  exact nonneg_of_mul_nonneg_right e3 hb2

/-- Inside one octant of equal `atanRank`, the cross-product comparison is
transitive (vectors of an open quadrant are mapped into the first quadrant
by a rotation or point reflection, which preserves the cross product; on
an axis all cross products vanish). -/
theorem cross_trans_of_rank {a b c : Pt} (hab : atanRank a = atanRank b)
    (hbc : atanRank b = atanRank c) (h1 : 0 ≤ cross a b) (h2 : 0 ≤ cross b c) :
    0 ≤ cross a c := by
  have h7 := atanRank_le_seven a
  unfold cross at h1 h2 ⊢
  interval_cases h : atanRank a
  · obtain ⟨hax, hay⟩ := atanRank_eq_zero h
    obtain ⟨hbx, hby⟩ := atanRank_eq_zero hab.symm
    obtain ⟨hcx, hcy⟩ := atanRank_eq_zero (hbc.symm.trans hab.symm)
    have := @crossTransQ1 (-a.x) (-a.y) (-b.x) (-b.y) (-c.x) (-c.y)
      (by linarith) (by linarith) (by linarith) (by nlinarith) (by nlinarith)
    nlinarith
  · obtain ⟨hax, _⟩ := atanRank_eq_one h
    obtain ⟨hcx, _⟩ := atanRank_eq_one (hbc.symm.trans hab.symm)
    simp [hax, hcx]
  · obtain ⟨hax, hay⟩ := atanRank_eq_two h
    obtain ⟨hbx, hby⟩ := atanRank_eq_two hab.symm
    obtain ⟨hcx, hcy⟩ := atanRank_eq_two (hbc.symm.trans hab.symm)
    have := @crossTransQ1 (-a.y) (a.x) (-b.y) (b.x) (-c.y) (c.x)
      hax hbx hcx (by nlinarith) (by nlinarith)
    nlinarith
  · obtain ⟨hay, _⟩ := atanRank_eq_three h
    obtain ⟨hcy, _⟩ := atanRank_eq_three (hbc.symm.trans hab.symm)
    simp [hay, hcy]
  · obtain ⟨hax, hay⟩ := atanRank_eq_four h
    obtain ⟨hbx, hby⟩ := atanRank_eq_four hab.symm
    obtain ⟨hcx, hcy⟩ := atanRank_eq_four (hbc.symm.trans hab.symm)
    exact crossTransQ1 hay hby hcy h1 h2
  · obtain ⟨hax, _⟩ := atanRank_eq_five h
    obtain ⟨hcx, _⟩ := atanRank_eq_five (hbc.symm.trans hab.symm)
    simp [hax, hcx]
  · obtain ⟨hax, hay⟩ := atanRank_eq_six h
    obtain ⟨hbx, hby⟩ := atanRank_eq_six hab.symm
    obtain ⟨hcx, hcy⟩ := atanRank_eq_six (hbc.symm.trans hab.symm)
    have := @crossTransQ1 (a.y) (-a.x) (b.y) (-b.x) (c.y) (-c.x)
      (by linarith) (by linarith) (by linarith) (by nlinarith) (by nlinarith)
    nlinarith
  · obtain ⟨hay, _⟩ := atanRank_eq_seven h
    obtain ⟨hcy, _⟩ := atanRank_eq_seven (hbc.symm.trans hab.symm)
    simp [hay, hcy]

theorem angLE_iff (a b : Pt) : angLE a b = true ↔
    (atanRank a < atanRank b ∨ (atanRank a = atanRank b ∧ 0 ≤ cross a b)) := by
  simp [angLE]

theorem angLE_total (a b : Pt) : angLE a b = true ∨ angLE b a = true := by
  rw [angLE_iff, angLE_iff]
  rcases Nat.lt_trichotomy (atanRank a) (atanRank b) with h | h | h
  · exact Or.inl (Or.inl h)
  · rcases le_total 0 (cross a b) with hc | hc
    · exact Or.inl (Or.inr ⟨h, hc⟩)
    · refine Or.inr (Or.inr ⟨h.symm, ?_⟩)
      unfold cross at hc ⊢
      linarith
  · exact Or.inr (Or.inl h)

theorem angLE_trans {a b c : Pt} (h1 : angLE a b = true) (h2 : angLE b c = true) :
    angLE a c = true := by
  rw [angLE_iff] at h1 h2 ⊢
  rcases h1 with h1 | ⟨h1, hc1⟩ <;> rcases h2 with h2 | ⟨h2, hc2⟩
  · exact Or.inl (h1.trans h2)
  · exact Or.inl (h2 ▸ h1)
  · exact Or.inl (h1 ▸ h2)
  · exact Or.inr ⟨h1.trans h2, cross_trans_of_rank h1 h2 hc1 hc2⟩

/-! ### Claim C7 — ordering of the produced polygons -/

theorem mapM_zip_ok {α β : Type} {f : α → Except Err β} :
    ∀ {l : List α} {l' : List β}, List.mapM f l = Except.ok l' →
      ∀ p ∈ l.zip l', f p.1 = Except.ok p.2 := by
  intro l
  induction l with
  | nil =>
    intro l' h p hp
    cases hp
  | cons a t ih =>
    intro l' h p hp
    rw [List.mapM_cons] at h
    obtain ⟨b, hb, h⟩ := exceptBind_ok.mp h
    obtain ⟨bs, hbs, h⟩ := exceptBind_ok.mp h
    rw [← exceptPure_ok.mp h] at hp
    rcases List.mem_cons.mp hp with rfl | hp'
    · exact hb
    · exact ih hbs p hp'

theorem mapM_of_pairs {α β : Type} {f : α → Except Err β} :
    ∀ {L : List (α × β)}, (∀ p ∈ L, f p.1 = Except.ok p.2) →
      List.mapM f (L.map Prod.fst) = Except.ok (L.map Prod.snd) := by
  intro L
  induction L with
  | nil => intro _; rfl
  | cons p t ih =>
    intro h
    rw [List.map_cons, List.map_cons, List.mapM_cons]
    rw [h p (List.mem_cons_self p t)]
    rw [exceptBind_ok]
    refine ⟨p.2, rfl, ?_⟩
    rw [ih (fun q hq => h q (List.mem_cons_of_mem p hq))]
    rw [exceptBind_ok]
    exact ⟨t.map Prod.snd, rfl, rfl⟩

theorem mapM_pyGet_append {verts ext : List Pt} :
    ∀ {reg : List ℤ} {pts : List Pt}, (∀ v ∈ reg, 0 ≤ v) →
      List.mapM (pyGet verts) reg = Except.ok pts →
      List.mapM (pyGet (verts ++ ext)) reg = Except.ok pts := by
  intro reg
  induction reg with
  | nil => intro pts _ h; exact h
  | cons v t ih =>
    intro pts hnn h
    rw [List.mapM_cons] at h ⊢
    obtain ⟨b, hb, h⟩ := exceptBind_ok.mp h
    obtain ⟨bs, hbs, h⟩ := exceptBind_ok.mp h
    rw [pyGet_append (hnn v (List.mem_cons_self v t)) hb]
    rw [exceptBind_ok]
    refine ⟨b, rfl, ?_⟩
    rw [ih (fun w hw => hnn w (List.mem_cons_of_mem v hw)) hbs]
    rw [exceptBind_ok]
    exact ⟨bs, rfl, h⟩

theorem listSum_perm {l1 l2 : List ℚ} (h : List.Perm l1 l2) : listSum l1 = listSum l2 := by
  induction h with
  | nil => rfl
  | cons x _ ih =>
    simp only [listSum, List.foldr_cons] at ih ⊢
    rw [ih]
  | swap x y l =>
    simp only [listSum, List.foldr_cons]
    ring
  | trans _ _ ih1 ih2 => rw [ih1, ih2]

theorem centerOf_perm {l1 l2 : List Pt} (h : List.Perm l1 l2) : centerOf l1 = centerOf l2 := by
  unfold centerOf
  rw [listSum_perm (h.map Pt.x), listSum_perm (h.map Pt.y), h.length_eq]

/-- On a raw region that is not already finite, a successful site step
appends a region whose vertices (looked up in the step's output table) are
sorted by ascending `arctan2` angle about their centroid, and whose
entries are all nonnegative. -/
theorem processSite_sorted {sq : ℚ → ℚ} {vor : VorDiagram} {center : Pt} {radius : ℚ}
    {st : List (List ℤ) × List Pt} {pr : ℕ × ℤ} {st' : List (List ℤ) × List Pt}
    (h : processSite sq vor center radius st pr = Except.ok st')
    {rawReg : List ℤ} (hraw : pyGet vor.regions pr.2 = Except.ok rawReg)
    (hnf : rawReg.all (fun v => decide (0 ≤ v)) = false) :
    ∃ reg pts, st'.1 = st.1 ++ [reg] ∧ (∀ v ∈ reg, 0 ≤ v) ∧
      List.mapM (pyGet st'.2) reg = Except.ok pts ∧
      List.Pairwise (fun pa pb =>
        angLE (Pt.sub pa (centerOf pts)) (Pt.sub pb (centerOf pts)) = true) pts := by
  simp only [processSite] at h
  obtain ⟨rr, hrr, h⟩ := exceptBind_ok.mp h
  rw [hraw] at hrr
  cases hrr
  rw [if_neg (by rw [hnf]; exact Bool.false_ne_true)] at h
  split at h
  · cases h
  · obtain ⟨res, hres, h⟩ := exceptBind_ok.mp h
    obtain ⟨pts0, hpts0, h⟩ := exceptBind_ok.mp h
    have hst := exceptPure_ok.mp h
    subst hst
    have hnn : ∀ v ∈ res.1, 0 ≤ v := by
      refine foldlM_invariant (P := fun s : List ℤ × List Pt => ∀ v ∈ s.1, 0 ≤ v)
        (fun s a s' hs hPs => ?_) _ _ _ hres (fun v hv =>
          of_decide_eq_true (List.mem_filter.mp hv).2)
      rcases ridgeStep_ok_cases hs with rfl | ⟨far, rfl⟩
      · exact hPs
      · intro v hv
        rcases List.mem_append.mp hv with hv' | hv'
        · exact hPs v hv'
        · rw [List.mem_singleton.mp hv']
          exact Int.natCast_nonneg _
    have hptslen : pts0.length = res.1.length := mapM_ok_length hpts0
    have hperm := List.perm_insertionSort
      (fun a b : ℤ × Pt =>
        angLE (Pt.sub a.2 (centerOf pts0)) (Pt.sub b.2 (centerOf pts0)) = true)
      (res.1.zip pts0)
    have hpairs : ∀ p ∈ List.insertionSort
        (fun a b : ℤ × Pt =>
          angLE (Pt.sub a.2 (centerOf pts0)) (Pt.sub b.2 (centerOf pts0)) = true)
        (res.1.zip pts0), pyGet res.2 p.1 = Except.ok p.2 :=
      fun p hp => mapM_zip_ok hpts0 p (hperm.mem_iff.mp hp)
    have hmap := mapM_of_pairs hpairs
    have hsortperm : List.Perm (List.map Prod.snd (List.insertionSort
        (fun a b : ℤ × Pt =>
          angLE (Pt.sub a.2 (centerOf pts0)) (Pt.sub b.2 (centerOf pts0)) = true)
        (res.1.zip pts0))) pts0 := by
      have h1 := hperm.map Prod.snd
      rw [List.map_snd_zip res.1 pts0 (le_of_eq hptslen)] at h1
      exact h1
    have hcent : centerOf (List.map Prod.snd (List.insertionSort
        (fun a b : ℤ × Pt =>
          angLE (Pt.sub a.2 (centerOf pts0)) (Pt.sub b.2 (centerOf pts0)) = true)
        (res.1.zip pts0))) = centerOf pts0 := centerOf_perm hsortperm
    have hsorted := @List.sorted_insertionSort (ℤ × Pt)
      (fun a b : ℤ × Pt =>
        angLE (Pt.sub a.2 (centerOf pts0)) (Pt.sub b.2 (centerOf pts0)) = true)
      (fun a b => instDecidableEqBool _ true)
      ⟨fun a b => angLE_total (Pt.sub a.2 (centerOf pts0)) (Pt.sub b.2 (centerOf pts0))⟩
      ⟨fun a b c hab hbc => angLE_trans hab hbc⟩
      (res.1.zip pts0)
    refine ⟨_, _, rfl, ?_, hmap, ?_⟩
    · intro v hv
      obtain ⟨p, hp, rfl⟩ := List.mem_map.mp hv
      exact hnn p.1 (List.of_mem_zip (hperm.mem_iff.mp hp)).1
    · rw [hcent]
      exact List.pairwise_map.mpr hsorted

theorem outerFold_mono {sq : ℚ → ℚ} {vor : VorDiagram} {center : Pt} {radius : ℚ}
    {l : List (ℕ × ℤ)} {st st' : List (List ℤ) × List Pt}
    (h : List.foldlM (processSite sq vor center radius) st l = Except.ok st') :
    ∃ ext, st'.2 = st.2 ++ ext :=
  foldlM_rel (R := fun s s' => ∃ e, s'.2 = s.2 ++ e) (fun s => ⟨[], by simp⟩)
    (fun s t u ⟨e1, h1⟩ ⟨e2, h2⟩ => ⟨e1 ++ e2, by rw [h2, h1, List.append_assoc]⟩)
    (fun s a s' hs => by
      obtain ⟨reg, e, rfl⟩ := processSite_shape hs
      exact ⟨e, rfl⟩) l st st' h

/-- Positional characterization of the site loop: the `k`-th produced
region belongs to the `k`-th site, and when that site's raw region was not
already finite, the produced region is angle-sorted. -/
theorem outerFold_sorted {sq : ℚ → ℚ} {vor : VorDiagram} {center : Pt} {radius : ℚ} :
    ∀ (l : List (ℕ × ℤ)) (st st' : List (List ℤ) × List Pt),
      List.foldlM (processSite sq vor center radius) st l = Except.ok st' →
      ∃ tail, st'.1 = st.1 ++ tail ∧ tail.length = l.length ∧
        ∀ (k : ℕ) (hk : k < l.length) (hk2 : k < tail.length) (rawReg : List ℤ),
          pyGet vor.regions (l.get ⟨k, hk⟩).2 = Except.ok rawReg →
          rawReg.all (fun v => decide (0 ≤ v)) = false →
          ∃ pts, List.mapM (pyGet st'.2) (tail.get ⟨k, hk2⟩) = Except.ok pts ∧
            List.Pairwise (fun pa pb =>
              angLE (Pt.sub pa (centerOf pts)) (Pt.sub pb (centerOf pts)) = true) pts := by
  intro l
  induction l with
  | nil =>
    intro st st' h
    rw [List.foldlM_nil] at h
    rw [← exceptPure_ok.mp h]
    exact ⟨[], by simp, rfl, fun k hk => absurd hk (Nat.not_lt_zero k)⟩
  | cons a rest ih =>
    intro st st' h
    rw [List.foldlM_cons] at h
    obtain ⟨st1, hstep, hrest⟩ := exceptBind_ok.mp h
    obtain ⟨reg0, ext0, hshape⟩ := processSite_shape hstep
    obtain ⟨tail1, htail1, hlen1, hk1⟩ := ih st1 st' hrest
    refine ⟨reg0 :: tail1, ?_, by simp [hlen1], ?_⟩
    · rw [htail1, hshape]
      simp
    · intro k hk hk2 rawReg hraw hnf
      cases k with
      | zero =>
        obtain ⟨reg, pts, hreg, hnn, hmap, hpair⟩ := processSite_sorted hstep hraw hnf
        have hregeq : reg0 = reg := by
          rw [hshape] at hreg
          have := List.append_cancel_left hreg
          simpa using this
        obtain ⟨ext2, hext2⟩ := outerFold_mono hrest
        refine ⟨pts, ?_, hpair⟩
        show List.mapM (pyGet st'.2) reg0 = Except.ok pts
        rw [hregeq, hext2]
        exact mapM_pyGet_append hnn hmap
      | succ j =>
        have hj : j < rest.length := Nat.lt_of_succ_lt_succ hk
        have hj2 : j < tail1.length := Nat.lt_of_succ_lt_succ hk2
        exact hk1 j hj hj2 rawReg hraw hnf

/-- C7 fails on the code: a region that is already finite is copied
**unchanged**, so a clockwise input region reaches the output not sorted
by ascending `arctan2` angle about its centroid. -/
theorem C7_counterexample :
    voronoi_finite_polygons_2d qSqrt cex7Diagram none =
      Except.ok ([[0, 1, 2, 3]], [⟨0, 0⟩, ⟨0, 1⟩, ⟨1, 1⟩, ⟨1, 0⟩]) ∧
    ¬ List.Pairwise (fun pa pb =>
        angLE (Pt.sub pa (centerOf [⟨0, 0⟩, ⟨0, 1⟩, ⟨1, 1⟩, ⟨1, 0⟩]))
          (Pt.sub pb (centerOf [⟨0, 0⟩, ⟨0, 1⟩, ⟨1, 1⟩, ⟨1, 0⟩])) = true)
      [⟨0, 0⟩, ⟨0, 1⟩, ⟨1, 1⟩, ⟨1, 0⟩] := by
  with_unfolding_all decide

/-- C7 amended: only the regions reconstructed from a raw region that was
**not** already finite are sorted by ascending `arctan2` angle about the
centroid of their vertices; already-finite regions are copied unchanged in
whatever order the input diagram provides. -/
theorem C7_amended (sq : ℚ → ℚ) (vor : VorDiagram) (radiusArg : Option ℚ)
    (regs : List (List ℤ)) (verts : List Pt)
    (hok : voronoi_finite_polygons_2d sq vor radiusArg = Except.ok (regs, verts))
    (k : ℕ) (hk : k < vor.point_region.length) (hk2 : k < regs.length)
    (rawReg : List ℤ)
    (hraw : pyGet vor.regions (vor.point_region.get ⟨k, hk⟩) = Except.ok rawReg)
    (hnf : rawReg.all (fun v => decide (0 ≤ v)) = false) :
    ∃ pts, List.mapM (pyGet verts) (regs.get ⟨k, hk2⟩) = Except.ok pts ∧
      List.Pairwise (fun pa pb =>
        angLE (Pt.sub pa (centerOf pts)) (Pt.sub pb (centerOf pts)) = true) pts := by
  unfold voronoi_finite_polygons_2d at hok
  obtain ⟨tail, htail, hlen, hsites⟩ := outerFold_sorted vor.point_region.enum
    ([], vor.vertices) (regs, verts) hok
  have htail' : regs = tail := by simpa using htail
  subst htail'
  have hkl : k < vor.point_region.enum.length := by
    rw [List.enum_length]; exact hk
  have henum : (vor.point_region.enum.get ⟨k, hkl⟩).2 = vor.point_region.get ⟨k, hk⟩ := by
    simp [List.get_eq_getElem, List.getElem_enum]
  refine hsites k hkl hk2 rawReg ?_ hnf
  rw [henum]
  exact hraw

theorem C7_witness :
    ∃ pts, List.mapM (pyGet ([⟨5, 7⟩, ⟨5, 7⟩, ⟨5, 7⟩] : List Pt))
        (([[0, 1], [0, 2]] : List (List ℤ)).get ⟨0, by decide⟩) = Except.ok pts ∧
      List.Pairwise (fun pa pb =>
        angLE (Pt.sub pa (centerOf pts)) (Pt.sub pb (centerOf pts)) = true) pts :=
  C7_amended qSqrt cex2Diagram none [[0, 1], [0, 2]] [⟨5, 7⟩, ⟨5, 7⟩, ⟨5, 7⟩]
    (by with_unfolding_all decide) 0 (by decide) (by decide) [-1, 0]
    (by with_unfolding_all decide) (by with_unfolding_all decide)

end SLMVoronoi
